import Mathlib

/-!
Shallow embedding of `scripts/validate_urls.py`, a documentation URL
validation script.  Strings from the Python side are embedded as `List Char`
(one entry per code point, matching Python `str` indexing); file paths are
kept as opaque `String`s.  Each definition carries a comment pointing to the
Python lines it embeds.
-/

namespace ValidateUrls

/-- Python whitespace class `\s` restricted to ASCII: space, tab, newline,
carriage return, vertical tab, form feed.  (Python's `\s` additionally matches
some non-ASCII Unicode spaces; all inputs considered in this development are
ASCII.) -/
def pySpace (c : Char) : Bool :=
  c = ' ' || c = '\t' || c = '\n' || c = '\r' || c = Char.ofNat 11 || c = Char.ofNat 12

/-- `prefB p s` is true when `p` is a prefix of `s` (used to embed regex
literal-prefix matching). -/
def prefB : List Char → List Char → Bool
  | [], _ => true
  | _ :: _, [] => false
  | a :: s, b :: t => a = b && prefB s t

/-- `infB n h` is true when `n` occurs as a contiguous substring of `h`:
Python's `n in h` on strings. -/
def infB (needle : List Char) : List Char → Bool
  | [] => prefB needle []
  | c :: t => prefB needle (c :: t) || infB needle t

/-- Python `str.lstrip(cs)`: remove leading characters drawn from `cs`. -/
def lstrip (cs : List Char) (s : List Char) : List Char :=
  s.dropWhile (fun c => cs.contains c)

/-- Python `str.rstrip(cs)`: remove trailing characters drawn from `cs`. -/
def rstrip (cs : List Char) (s : List Char) : List Char :=
  (s.reverse.dropWhile (fun c => cs.contains c)).reverse

/-- Python `str.strip()` (no argument): remove leading and trailing
whitespace. -/
def pyStrip (s : List Char) : List Char :=
  ((s.dropWhile pySpace).reverse.dropWhile pySpace).reverse

/-- The scanning loop of `extract_markdown_link_url` (validate_urls.py lines
56-71), operating on the portion of the text from the start position onward.
The characters returned are exactly `text[url_start:i]` at the point the
Python loop stops: a `(` raises the depth, a `)` at depth 0 or a space, tab or
newline stops the scan, a `)` at positive depth lowers the depth, end of text
stops the scan. -/
def extractLoop : List Char → Nat → List Char
  | [], _ => []
  | c :: rest, depth =>
    if c = '(' then c :: extractLoop rest (depth + 1)
    else if c = ')' then
      if depth = 0 then [] else c :: extractLoop rest (depth - 1)
    else if c = ' ' || c = '\t' || c = '\n' then []
    else c :: extractLoop rest depth

/-- `extract_markdown_link_url` (validate_urls.py lines 54-71): extract a URL
from markdown link syntax starting at `start_pos`, tracking parenthesis
depth. -/
def extract_markdown_link_url (text : List Char) (start_pos : Nat) : List Char :=
  extractLoop (text.drop start_pos) 0

/-- Modelled from the spec: the spec's phrase "the exact URL substring up to
the matching unescaped closing parenthesis" (section 8).  Identical to
`extractLoop` except that a character preceded by a backslash is escaped: it
is consumed verbatim and takes no part in parenthesis counting or
termination.  Used to compare the spec's wording against the code, which has
no notion of escaping. -/
def specUnescapedLoop : List Char → Nat → List Char
  | [], _ => []
  | '\\' :: c :: rest, depth => '\\' :: c :: specUnescapedLoop rest depth
  | c :: rest, depth =>
    if c = '(' then c :: specUnescapedLoop rest (depth + 1)
    else if c = ')' then
      if depth = 0 then [] else c :: specUnescapedLoop rest (depth - 1)
    else if c = ' ' || c = '\t' || c = '\n' then []
    else c :: specUnescapedLoop rest depth

/-- Modelled from the spec: extraction up to the matching unescaped closing
parenthesis, started at `start_pos`. -/
def specUnescapedExtract (text : List Char) (start_pos : Nat) : List Char :=
  specUnescapedLoop (text.drop start_pos) 0

/-- The parenthesis depth after scanning a list of characters starting from
depth `d`, mirroring the `paren_depth` variable of `extractLoop`.  (The Python
code never lets the depth go below zero: the decrement is guarded by
`depth = 0`.) -/
def endDepth : List Char → Nat → Nat
  | [], d => d
  | c :: rest, d =>
    if c = '(' then endDepth rest (d + 1)
    else if c = ')' then endDepth rest (d - 1)
    else endDepth rest d

/-- The character class `[^\s"'<>)\]]` of `BARE_URL_PATTERN` (validate_urls.py
line 17): any character that is not whitespace, double quote, single quote,
angle bracket, closing parenthesis or closing square bracket.  (Codes 34, 39:
double and single quote.) -/
def allowedBare (c : Char) : Bool :=
  !(pySpace c || c = Char.ofNat 34 || c = Char.ofNat 39 || c = '<' || c = '>'
    || c = ')' || c = ']')

def httpsPre : List Char := "https://".toList

def httpPre : List Char := "http://".toList

/-- One attempted match of `BARE_URL_PATTERN = https?://[^\s"'<>)\]]+` at the
start of `s`: the scheme literal (with greedy optional `s`, as in the regex),
then a maximal nonempty run of allowed characters.  Returns the match together
with the remainder of `s` after it.  The two scheme branches are mutually
exclusive, so no regex backtracking arises. -/
def matchBareAt (s : List Char) : Option (List Char × List Char) :=
  if prefB httpsPre s then
    if ((s.drop 8).takeWhile allowedBare).isEmpty then none
    else some (httpsPre ++ (s.drop 8).takeWhile allowedBare, (s.drop 8).dropWhile allowedBare)
  else if prefB httpPre s then
    if ((s.drop 7).takeWhile allowedBare).isEmpty then none
    else some (httpPre ++ (s.drop 7).takeWhile allowedBare, (s.drop 7).dropWhile allowedBare)
  else none

/-- Python `BARE_URL_PATTERN.finditer`: non-overlapping matches, scanning left
to right, resuming after each match.  The fuel argument only bounds the number
of loop iterations for structural recursion; every iteration consumes at least
one character of `s`, so fuel `s.length` (as supplied by `bareFinditer`) is
never exhausted. -/
def bareFindGo : Nat → List Char → List (List Char)
  | 0, _ => []
  | _ + 1, [] => []
  | fuel + 1, c :: t =>
    match matchBareAt (c :: t) with
    | some (m, after) => m :: bareFindGo fuel after
    | none => bareFindGo fuel t

/-- All matches of `BARE_URL_PATTERN` in a line (validate_urls.py lines 91 and
118). -/
def bareFinditer (s : List Char) : List (List Char) := bareFindGo s.length s

def mdAnchorHttp : List Char := "](http://".toList

def mdAnchorHttps : List Char := "](https://".toList

/-- Whether the regex `\]\((https?://)` (validate_urls.py lines 82 and 109)
matches at the start of `s`. -/
def isMdAnchor (s : List Char) : Bool := prefB mdAnchorHttp s || prefB mdAnchorHttps s

/-- `re.search(r"\]\((https?://)", s)`: index of the leftmost match of the
markdown-link anchor, if any. -/
def findMdAnchor : List Char → Option Nat
  | [] => none
  | c :: t => if isMdAnchor (c :: t) then some 0 else (findMdAnchor t).map (· + 1)

/-- One URL occurrence: file path, line number, URL text (the tuples
accumulated in `urls` by the extraction functions). -/
abbrev Entry := String × Nat × List Char

/-- The markdown-link scanning loop of `extract_urls_from_markdown`
(validate_urls.py lines 80-89) and of `extract_urls_from_rust` (lines
107-116): search for `](http(s)://`, extract the URL starting two characters
into the match, record it, resume after the URL.  `s` is the not-yet-consumed
suffix of the line (the Python code keeps the full line and an index `i`; the
two views coincide because `extract_markdown_link_url` only reads the text
from `url_start` onward).  The fuel (initially the line length) only bounds
the iteration count: each iteration consumes at least two characters, so it is
never exhausted. -/
def mdGo (fp : String) (ln : Nat) : Nat → List Char → List Entry → List Entry
  | 0, _, acc => acc
  | fuel + 1, s, acc =>
    match findMdAnchor s with
    | none => acc
    | some j =>
      let url := extract_markdown_link_url s (j + 2)
      mdGo fp ln fuel (s.drop (j + 2 + url.length)) (acc ++ [(fp, ln, url)])

/-- The bare-URL recording loop shared by validate_urls.py lines 91-94 and
118-121: for each regex match `m`, strip it with `stripF`; if the stripped
text occurs as a substring of any URL already collected (`url in
existing_url`), discard the occurrence, otherwise append it. -/
def bareStep (stripF : List Char → List Char) (fp : String) (ln : Nat) :
    List Entry → List (List Char) → List Entry
  | urls, [] => urls
  | urls, m :: ms =>
    let url := stripF m
    if urls.any (fun e => infB url e.2.2) then bareStep stripF fp ln urls ms
    else bareStep stripF fp ln (urls ++ [(fp, ln, url)]) ms

/-- The markdown bare-URL strip, line 92: `match.group(0).rstrip(".,;:")`. -/
def mdStrip (m : List Char) : List Char := rstrip ".,;:".toList m

/-- The characters of the Rust-side `rstrip` argument on line 119:
`.,;:` followed by single quote (39), double quote (34) and backtick (96). -/
def rustStripChars : List Char :=
  ['.', ',', ';', ':', Char.ofNat 39, Char.ofNat 34, Char.ofNat 96]

/-- The Rust bare-URL strip, line 119:
`match.group(0).rstrip(".,;:'\"\x60").lstrip("<")`. -/
def rustStrip (m : List Char) : List Char := lstrip ['<'] (rstrip rustStripChars m)

/-- Processing of one markdown line (validate_urls.py lines 79-94): the
markdown-link loop followed by the bare-URL loop, both extending the per-file
accumulator `urls`. -/
def markdownLineStep (fp : String) (ln : Nat) (urls : List Entry) (line : List Char) :
    List Entry :=
  bareStep mdStrip fp ln (mdGo fp ln line.length line urls) (bareFinditer line)

/-- Iteration of `extract_urls_from_markdown` over the numbered lines of a
file. -/
def mdFileGo (fp : String) : Nat → List Entry → List (List Char) → List Entry
  | _, urls, [] => urls
  | ln, urls, line :: rest => mdFileGo fp (ln + 1) (markdownLineStep fp ln urls line) rest

/-- `extract_urls_from_markdown` (validate_urls.py lines 74-97) on the lines of
one file (the file is abstracted as its `splitlines()` decomposition; the
`except` clause concerns file reading only and is out of scope here). -/
def extract_urls_from_markdown (fp : String) (lines : List (List Char)) : List Entry :=
  mdFileGo fp 1 [] lines

/-- `DOCSTRING_PATTERN = ^\s*(///|//!)` matched against a line
(validate_urls.py lines 18 and 106). -/
def isDocLine (line : List Char) : Bool :=
  let t := line.dropWhile pySpace
  prefB "///".toList t || prefB "//!".toList t

/-- Processing of one Rust line (validate_urls.py lines 105-121): only
docstring lines are scanned; the strip set is the Rust one. -/
def rustLineStep (fp : String) (ln : Nat) (urls : List Entry) (line : List Char) :
    List Entry :=
  if isDocLine line then
    bareStep rustStrip fp ln (mdGo fp ln line.length line urls) (bareFinditer line)
  else urls

/-- Iteration of `extract_urls_from_rust` over the numbered lines of a file. -/
def rustFileGo (fp : String) : Nat → List Entry → List (List Char) → List Entry
  | _, urls, [] => urls
  | ln, urls, line :: rest => rustFileGo fp (ln + 1) (rustLineStep fp ln urls line) rest

/-- `extract_urls_from_rust` (validate_urls.py lines 100-124) on the lines of
one file. -/
def extract_urls_from_rust (fp : String) (lines : List (List Char)) : List Entry :=
  rustFileGo fp 1 [] lines

/-- The placeholder markers of validate_urls.py line 130 (the brace is code
point 123). -/
def placeholders : List (List Char) :=
  ["\x7b".toList, "<".toList, "...".toList, "example.com".toList]

/-- Line 130: `any(placeholder in url for placeholder in [...])`. -/
def hasPlaceholder (url : List Char) : Bool :=
  placeholders.any (fun p => infB p url)

/-- CPython `urllib.parse.urlsplit` first removes every tab, carriage return
and newline from its argument (`_UNSAFE_URL_BYTES_TO_REMOVE`). -/
def removeUnsafe (s : List Char) : List Char :=
  s.filter (fun c => !(c = '\t' || c = '\r' || c = '\n'))

/-- CPython `scheme_chars`: ASCII letters, digits, `+`, `-`, `.`. -/
def schemeChar (c : Char) : Bool := c.isAlphanum || c = '+' || c = '-' || c = '.'

/-- The scheme-splitting step of CPython `urlsplit`: when the first `:` sits
at a positive index, the first character is an ASCII letter and everything
before the `:` is a scheme character, the scheme and the `:` are removed. -/
def dropSchemePart (s : List Char) : List Char :=
  match s.findIdx? (· = ':') with
  | none => s
  | some i =>
    if 0 < i ∧ (s.take 1).all Char.isAlpha = true ∧ (s.take i).all schemeChar = true then
      s.drop (i + 1)
    else s

/-- `urlparse(url).netloc` as computed by CPython `urlsplit`: after scheme
removal, a string starting with `//` has as netloc the characters between the
`//` and the next `/`, `?` or `#`; any other string has an empty netloc. -/
def netlocOf (url : List Char) : List Char :=
  let r := dropSchemePart (removeUnsafe url)
  if prefB "//".toList r then
    (r.drop 2).takeWhile (fun c => !(c = '/' || c = '?' || c = '#'))
  else []

/-- CPython `urlsplit` raises `ValueError("Invalid IPv6 URL")` when the netloc
contains a square bracket without its partner.  (Recent CPython additionally
validates hosts in which both brackets occur; the theorems below never rely on
the behaviour for such URLs.) -/
def urlparseRaises (url : List Char) : Bool :=
  ((netlocOf url).contains '[' && !(netlocOf url).contains ']') ||
    ((netlocOf url).contains ']' && !(netlocOf url).contains '[')

/-- Lines 139-142: the allowlist membership test, `"crates.io" in url`. -/
def allowlisted (url : List Char) : Bool := infB "crates.io".toList url

instance {ε α : Type} [DecidableEq ε] [DecidableEq α] : DecidableEq (Except ε α) := fun a b =>
  match a, b with
  | .error e, .error f =>
    if h : e = f then isTrue (by rw [h]) else isFalse (fun hh => h (Except.error.inj hh))
  | .error _, .ok _ => isFalse (fun hh => Except.noConfusion hh)
  | .ok _, .error _ => isFalse (fun hh => Except.noConfusion hh)
  | .ok x, .ok y =>
    if h : x = y then isTrue (by rw [h]) else isFalse (fun hh => h (Except.ok.inj hh))

/-- The outcome of the `subprocess.run(["curl", ...])` call in `validate_url`
(lines 146-163): normal completion with an exit code and captured streams,
`subprocess.TimeoutExpired`, or any other exception (whose `str` is given). -/
inductive CurlOutcome where
  | completed (returncode : Int) (stdout : List Char) (stderr : List Char)
  | timedOut
  | raised (msg : List Char)
deriving DecidableEq

/-- `validate_url` (validate_urls.py lines 127-180) as a function of the URL,
the timeout and the curl outcome.  `Except.error` is the uncaught
`ValueError` that `urlparse` raises on line 134 for a URL with an unmatched
square bracket in its authority (the `try` on line 145 begins only after the
skip checks, so that exception propagates to the caller).  Everything else is
an `Except.ok (url, status, message)` triple exactly as returned by the
Python function. -/
def validate_url (url : List Char) (timeout : Nat) (curl : CurlOutcome) :
    Except (List Char) (List Char × String × List Char) :=
  if hasPlaceholder url then .ok (url, "SKIP", "Template/placeholder URL".toList)
  else if urlparseRaises url then .error "Invalid IPv6 URL".toList
  else if netlocOf url = [] then .ok (url, "SKIP", "Relative or fragment URL".toList)
  else if allowlisted url then .ok (url, "SKIP", "Allowlisted (blocks CI user agents)".toList)
  else
    match curl with
    | .completed rc out err =>
      let status_code := pyStrip out
      if rc ≠ 0 then .ok (url, "FAIL", "Curl error: ".toList ++ err.take 100)
      else if prefB ['2'] status_code then .ok (url, "PASS", "HTTP ".toList ++ status_code)
      else if prefB ['3'] status_code then
        .ok (url, "PASS", "HTTP ".toList ++ status_code ++ " (redirect)".toList)
      else if status_code = "000".toList then .ok (url, "FAIL", "Connection failed".toList)
      else .ok (url, "FAIL", "HTTP ".toList ++ status_code)
    | .timedOut =>
      .ok (url, "FAIL", "Timeout after ".toList ++ (toString timeout).toList ++ "s".toList)
    | .raised m => .ok (url, "FAIL", "Exception: ".toList ++ m.take 100)

/-- The curl outcomes classified PASS by the non-skip branch of `validate_url`
(lines 166-172): exit code 0 and a stripped stdout starting with `2` or `3`. -/
def curlSuccess : CurlOutcome → Bool
  | .completed rc out _ =>
    if rc = 0 then prefB ['2'] (pyStrip out) || prefB ['3'] (pyStrip out) else false
  | _ => false

/-- One step of the `url_locations` grouping (lines 204-206):
`url_locations[url].append((file_path, line_no))` on a `defaultdict(list)`
whose keys keep insertion order, represented as an association list. -/
def addLoc (acc : List (List Char × List (String × Nat))) (e : Entry) :
    List (List Char × List (String × Nat)) :=
  match acc with
  | [] => [(e.2.2, [(e.1, e.2.1)])]
  | (v, locs) :: t =>
    if v = e.2.2 then (v, locs ++ [(e.1, e.2.1)]) :: t else (v, locs) :: addLoc t e

/-- `url_locations` (lines 204-206): group all occurrences by URL. -/
def url_locations (all_urls : List Entry) : List (List Char × List (String × Nat)) :=
  all_urls.foldl addLoc []

/-- `unique_urls = list(url_locations.keys())` (line 208); `validate_url` is
submitted once per element of this list (line 216), so the number of
invocations on a URL is its multiplicity here. -/
def unique_urls (all_urls : List Entry) : List (List Char) :=
  (url_locations all_urls).map (·.1)

/-- Lookup of the location list recorded for a URL. -/
def lookupLocs (u : List Char) : List (List Char × List (String × Nat)) → List (String × Nat)
  | [] => []
  | (v, locs) :: t => if v = u then locs else lookupLocs u t

/-- The per-result location printing of the report (lines 236-251): only a
FAIL result lists locations, namely the first three (line 242), plus the
count of the remaining ones when there are more than three (lines 244-245);
PASS and SKIP results list none. -/
def printedLocations (status : String) (locs : List (String × Nat)) :
    List (String × Nat) × Option Nat :=
  if status = "FAIL" then
    (locs.take 3, if 3 < locs.length then some (locs.length - 3) else none)
  else ([], none)

/-- A result triple `(url, status, message)` as collected in `results`. -/
abbrev Res := List Char × String × List Char

/-- The `status_order` dict of line 226.  (Only the three listed statuses ever
occur in the program; on any other string the Python lookup would raise
`KeyError`, modelled here by rank 3 — no theorem depends on that region.) -/
def status_order (st : String) : Nat :=
  if st = "FAIL" then 0 else if st = "PASS" then 1 else if st = "SKIP" then 2 else 3

/-- Python string comparison `≤` (lexicographic by code point). -/
def lexLeB : List Char → List Char → Bool
  | [], _ => true
  | _ :: _, [] => false
  | a :: s, b :: t =>
    if a.toNat < b.toNat then true else if b.toNat < a.toNat then false else lexLeB s t

/-- Python tuple comparison of the sort keys `(status_order[x[1]], x[0])` of
line 227. -/
def keyLe (a b : Res) : Prop :=
  status_order a.2.1 < status_order b.2.1 ∨
    (status_order a.2.1 = status_order b.2.1 ∧ lexLeB a.1 b.1 = true)

instance : DecidableRel keyLe := fun a b => by unfold keyLe; infer_instance

/-- `results.sort(key=lambda x: (status_order[x[1]], x[0]))` (lines 226-227).
Python's `list.sort` is the stable ascending sort by key; insertion sort with
the non-strict key comparison computes exactly that stable sort. -/
def sortResults (results : List Res) : List Res := List.insertionSort keyLe results

/-- `fail_count` as accumulated over the sorted results during report printing
(lines 230-251). -/
def fail_count (results : List Res) : Nat :=
  (sortResults results).countP (fun r => decide (r.2.1 = "FAIL"))

/-- Lines 268-274: exit status 1 when `fail_count > 0`, else 0. -/
def exit_code (results : List Res) : Nat :=
  if 0 < fail_count results then 1 else 0

/-- Decidable balancedness of the parentheses of a URL with respect to the
scan of `extractLoop`: scanning from depth `d` never meets a `)` at depth 0.
Every parenthesis counts; the code (and this predicate) has no notion of
backslash escaping. -/
def balancedScan : List Char → Nat → Bool
  | [], _ => true
  | c :: rest, d =>
    if c = '(' then balancedScan rest (d + 1)
    else if c = ')' then (if d = 0 then false else balancedScan rest (d - 1))
    else balancedScan rest d

/- ------------------------------------------------------------------ -/
/- Theorems                                                           -/
/- ------------------------------------------------------------------ -/

/-- Scanning a whitespace-free block whose parentheses never close below the
starting depth consumes the block entirely and continues at the resulting
depth. -/
theorem extractLoop_consumes (u : List Char) : ∀ (d : Nat) (s : List Char),
    u.all (fun c => !(c = ' ' || c = '\t' || c = '\n')) = true →
    balancedScan u d = true →
    extractLoop (u ++ s) d = u ++ extractLoop s (endDepth u d) := by
  induction u with
  | nil => intro d s _ _; simp [endDepth]
  | cons c rest ih =>
    intro d s hw hb
    rw [List.all_cons, Bool.and_eq_true] at hw
    obtain ⟨hwc, hwr⟩ := hw
    by_cases h1 : c = '('
    · subst h1
      rw [List.cons_append]
      show extractLoop ('(' :: (rest ++ s)) d = _
      rw [show extractLoop ('(' :: (rest ++ s)) d
            = '(' :: extractLoop (rest ++ s) (d + 1) from rfl]
      rw [show endDepth ('(' :: rest) d = endDepth rest (d + 1) from rfl]
      rw [ih (d + 1) s hwr (by simpa [balancedScan] using hb)]
      rfl
    · by_cases h2 : c = ')'
      · subst h2
        have hd : ¬ d = 0 := by
          intro h0
          rw [show balancedScan (')' :: rest) d = if d = 0 then false
                else balancedScan rest (d - 1) from rfl, if_pos h0] at hb
          exact absurd hb (by simp)
        have hb' : balancedScan rest (d - 1) = true := by
          rw [show balancedScan (')' :: rest) d = if d = 0 then false
                else balancedScan rest (d - 1) from rfl, if_neg hd] at hb
          exact hb
        rw [List.cons_append]
        rw [show extractLoop (')' :: (rest ++ s)) d
              = if d = 0 then [] else ')' :: extractLoop (rest ++ s) (d - 1) from rfl]
        rw [if_neg hd]
        rw [show endDepth (')' :: rest) d = endDepth rest (d - 1) from rfl]
        rw [ih (d - 1) s hwr hb']
        rfl
      · have hn : ¬(c = ' ' || c = '\t' || c = '\n') = true := by
          simp only [Bool.not_eq_true'] at hwc
          simp [hwc]
        rw [List.cons_append]
        rw [show extractLoop (c :: (rest ++ s)) d
              = if c = '(' then c :: extractLoop (rest ++ s) (d + 1)
                else if c = ')' then
                  (if d = 0 then [] else c :: extractLoop (rest ++ s) (d - 1))
                else if c = ' ' || c = '\t' || c = '\n' then []
                else c :: extractLoop (rest ++ s) d from rfl]
        rw [if_neg h1, if_neg h2, if_neg hn]
        rw [show endDepth (c :: rest) d
              = if c = '(' then endDepth rest (d + 1)
                else if c = ')' then endDepth rest (d - 1)
                else endDepth rest d from rfl]
        rw [if_neg h1, if_neg h2]
        have hb' : balancedScan rest d = true := by
          rw [show balancedScan (c :: rest) d
                = if c = '(' then balancedScan rest (d + 1)
                  else if c = ')' then
                    (if d = 0 then false else balancedScan rest (d - 1))
                  else balancedScan rest d from rfl, if_neg h1, if_neg h2] at hb
          exact hb
        rw [ih d s hwr hb']
        rfl

/-- C3 (amended): for every markdown input of the form
`pre ++ url ++ ")" ++ suffix` in which the URL contains no space, tab or
newline and its parentheses are balanced (never closing below the starting
depth and returning to it — every parenthesis counting, backslash-escaped
ones included, since the code knows no escaping), the extractor started just
after the opening parenthesis returns exactly the URL, nested parentheses of
any depth — in particular one level — included. -/
theorem c3_md_link_extractor_exact (pre u suf : List Char)
    (hw : u.all (fun c => !(c = ' ' || c = '\t' || c = '\n')) = true)
    (hb : balancedScan u 0 = true)
    (he : endDepth u 0 = 0) :
    extract_markdown_link_url (pre ++ u ++ ')' :: suf) pre.length = u := by
  unfold extract_markdown_link_url
  have h1 : (pre ++ u ++ ')' :: suf).drop pre.length = u ++ ')' :: suf := by
    rw [List.append_assoc]
    simp
  rw [h1, extractLoop_consumes u 0 (')' :: suf) hw hb, he]
  simp [extractLoop]

theorem c3_md_link_extractor_exact_witness :
    ("http://a.b/c(d)e".toList.all (fun c => !(c = ' ' || c = '\t' || c = '\n')) = true) ∧
    balancedScan "http://a.b/c(d)e".toList 0 = true ∧
    endDepth "http://a.b/c(d)e".toList 0 = 0 ∧
    extract_markdown_link_url
      ("[text](".toList ++ "http://a.b/c(d)e".toList ++ ')' :: " tail".toList)
      "[text](".toList.length = "http://a.b/c(d)e".toList :=
  ⟨by decide, by decide, by decide,
    c3_md_link_extractor_exact "[text](".toList "http://a.b/c(d)e".toList " tail".toList
      (by decide) (by decide) (by decide)⟩

/-- C3 (counterexample): on the markdown link `[a](http://x.y/a\)b)`, whose
URL part contains the backslash-escaped parenthesis `\)`, the code stops at
the escaped parenthesis and returns `http://x.y/a\`, not the substring up to
the matching unescaped closing parenthesis, which is `http://x.y/a\)b`.  The
claim as stated (extraction up to the matching unescaped closing parenthesis)
is therefore false on this input. -/
theorem c3_md_link_extractor_cex :
    extract_markdown_link_url "[a](http://x.y/a\\)b)".toList 4 = "http://x.y/a\\".toList ∧
    specUnescapedExtract "[a](http://x.y/a\\)b)".toList 4 = "http://x.y/a\\)b".toList ∧
    extract_markdown_link_url "[a](http://x.y/a\\)b)".toList 4 ≠
      specUnescapedExtract "[a](http://x.y/a\\)b)".toList 4 :=
  ⟨by decide, by decide, by decide⟩

/-- On a URL that passes all three skip checks, `validate_url` reaches the
curl phase and classifies the outcome PASS exactly on `curlSuccess`, FAIL
otherwise. -/
theorem validate_url_nonskip_branch (url : List Char) (t : Nat) (curl : CurlOutcome)
    (h1 : hasPlaceholder url = false) (h2 : urlparseRaises url = false)
    (h3 : ¬ netlocOf url = []) (h4 : allowlisted url = false) :
    ∃ m, validate_url url t curl =
      .ok (url, (if curlSuccess curl then "PASS" else "FAIL"), m) := by
  unfold validate_url curlSuccess
  simp only [h1, h2, h4, Bool.false_eq_true, if_false]
  rw [if_neg h3]
  cases curl with
  | completed rc out err =>
    dsimp only
    by_cases hrc : rc = 0
    · rw [if_neg (show ¬ rc ≠ 0 from fun hh => hh hrc)]
      by_cases hp2 : prefB ['2'] (pyStrip out) = true
      · refine ⟨"HTTP ".toList ++ pyStrip out, ?_⟩
        rw [if_pos hp2]
        simp [hrc, hp2]
      · by_cases hp3 : prefB ['3'] (pyStrip out) = true
        · refine ⟨"HTTP ".toList ++ pyStrip out ++ " (redirect)".toList, ?_⟩
          rw [if_neg hp2, if_pos hp3]
          simp [hrc, hp2, hp3]
        · by_cases h000 : pyStrip out = "000".toList
          · refine ⟨"Connection failed".toList, ?_⟩
            rw [if_neg hp2, if_neg hp3, if_pos h000]
            simp [hrc, hp2, hp3]
          · refine ⟨"HTTP ".toList ++ pyStrip out, ?_⟩
            rw [if_neg hp2, if_neg hp3, if_neg h000]
            simp [hrc, hp2, hp3]
    · refine ⟨"Curl error: ".toList ++ err.take 100, ?_⟩
      rw [if_pos hrc]
      simp [hrc]
  | timedOut => exact ⟨_, rfl⟩
  | raised m => exact ⟨_, rfl⟩

/-- When `urlparse` does not raise, `validate_url` returns a triple on every
curl outcome. -/
theorem validate_url_ok_of_no_raise (url : List Char) (t : Nat) (curl : CurlOutcome)
    (h2 : urlparseRaises url = false) :
    ∃ r, validate_url url t curl = .ok r := by
  unfold validate_url
  simp only [h2, Bool.false_eq_true, if_false]
  by_cases hp : hasPlaceholder url = true
  · rw [if_pos hp]; exact ⟨_, rfl⟩
  · rw [if_neg hp]
    by_cases hn : netlocOf url = []
    · rw [if_pos hn]; exact ⟨_, rfl⟩
    · rw [if_neg hn]
      by_cases ha : allowlisted url = true
      · rw [if_pos ha]; exact ⟨_, rfl⟩
      · rw [if_neg ha]
        cases curl with
        | completed rc out err => dsimp only; split_ifs <;> exact ⟨_, rfl⟩
        | timedOut => exact ⟨_, rfl⟩
        | raised m => exact ⟨_, rfl⟩

/-- The first skip branch of `validate_url` (lines 130-131). -/
theorem skip_placeholder_eq (url : List Char) (t : Nat) (curl : CurlOutcome)
    (h : hasPlaceholder url = true) :
    validate_url url t curl = .ok (url, "SKIP", "Template/placeholder URL".toList) := by
  unfold validate_url
  rw [if_pos h]

/-- The second skip branch of `validate_url` (lines 134-136). -/
theorem skip_netloc_eq (url : List Char) (t : Nat) (curl : CurlOutcome)
    (hp : hasPlaceholder url = false) (h2 : urlparseRaises url = false)
    (h3 : netlocOf url = []) :
    validate_url url t curl = .ok (url, "SKIP", "Relative or fragment URL".toList) := by
  unfold validate_url
  simp only [hp, h2, Bool.false_eq_true, if_false]
  rw [if_pos h3]

/-- The third skip branch of `validate_url` (lines 139-143). -/
theorem skip_allowlist_eq (url : List Char) (t : Nat) (curl : CurlOutcome)
    (hp : hasPlaceholder url = false) (h2 : urlparseRaises url = false)
    (h3 : ¬ netlocOf url = []) (h4 : allowlisted url = true) :
    validate_url url t curl =
      .ok (url, "SKIP", "Allowlisted (blocks CI user agents)".toList) := by
  unfold validate_url
  simp only [hp, h2, Bool.false_eq_true, if_false]
  rw [if_neg h3, if_pos h4]

/-- C4: a URL containing one of the placeholder markers (brace, `<`, `...`,
`example.com`) is classified SKIP with the fixed message, whatever the
timeout and whatever the curl outcome, i.e. independently of reachability. -/
theorem c4_placeholder_skip (url : List Char) (t : Nat) (curl : CurlOutcome)
    (h : hasPlaceholder url = true) :
    validate_url url t curl = .ok (url, "SKIP", "Template/placeholder URL".toList) :=
  skip_placeholder_eq url t curl h

theorem c4_placeholder_skip_witness :
    hasPlaceholder "http://example.com/x".toList = true ∧
    validate_url "http://example.com/x".toList 10 .timedOut =
      .ok ("http://example.com/x".toList, "SKIP", "Template/placeholder URL".toList) :=
  ⟨by decide, c4_placeholder_skip "http://example.com/x".toList 10 .timedOut (by decide)⟩

/-- C5: on every URL that is not skipped (no placeholder, a parse that does
not raise, a nonempty netloc, not allowlisted) the result is PASS exactly
when curl completed with exit code 0 and a stripped status string starting
with `2` or `3` (`curlSuccess`), and FAIL on every other outcome: other
status strings, `000`, nonzero curl exit, timeout, or subprocess exception. -/
theorem c5_pass_iff_success (url : List Char) (t : Nat) (curl : CurlOutcome)
    (h1 : hasPlaceholder url = false) (h2 : urlparseRaises url = false)
    (h3 : ¬ netlocOf url = []) (h4 : allowlisted url = false) :
    ∃ m, validate_url url t curl =
      .ok (url, (if curlSuccess curl then "PASS" else "FAIL"), m) :=
  validate_url_nonskip_branch url t curl h1 h2 h3 h4

theorem c5_pass_iff_success_witness :
    ∃ m, validate_url "http://a.b/c".toList 10 (.completed 0 " 404 ".toList []) =
      .ok ("http://a.b/c".toList,
        (if curlSuccess (.completed 0 " 404 ".toList []) then "PASS" else "FAIL"), m) :=
  c5_pass_iff_success "http://a.b/c".toList 10 (.completed 0 " 404 ".toList [])
    (by decide) (by decide) (by decide) (by decide)

/-- C6 (counterexample): `validate_url` can raise.  On the URL `http://[a`
(an unmatched square bracket in the authority), `urlparse` on line 134 —
outside the `try` block — raises `ValueError("Invalid IPv6 URL")`, which
propagates to the caller instead of any FAIL triple; and the markdown
extractor can produce exactly this URL, from `[t](http://[a)`. -/
theorem c6_validate_url_raises_cex :
    validate_url "http://[a".toList 10 (.completed 0 "200".toList []) =
      .error "Invalid IPv6 URL".toList ∧
    extract_markdown_link_url "[t](http://[a)".toList 4 = "http://[a".toList :=
  ⟨by decide, by decide⟩

/-- C6 (amended): for every URL whose authority part contains no square
bracket — every URL of ordinary shape — `validate_url` raises nothing: it
returns a triple on every curl outcome, and when the URL is not skipped,
every validation error (timeout, connection failure, non-2xx/3xx status,
nonzero curl exit, subprocess exception) is returned as a FAIL-classified
triple. -/
theorem c6_no_raise_amended (url : List Char) (t : Nat) (curl : CurlOutcome)
    (hbl : (netlocOf url).contains '[' = false)
    (hbr : (netlocOf url).contains ']' = false) :
    (∃ r, validate_url url t curl = .ok r) ∧
    (hasPlaceholder url = false → ¬ netlocOf url = [] → allowlisted url = false →
      curlSuccess curl = false →
      ∃ m, validate_url url t curl = .ok (url, "FAIL", m)) := by
  have h2 : urlparseRaises url = false := by
    unfold urlparseRaises
    rw [hbl, hbr]
    rfl
  refine ⟨validate_url_ok_of_no_raise url t curl h2, ?_⟩
  intro hp hn ha hcs
  obtain ⟨m, hm⟩ := validate_url_nonskip_branch url t curl hp h2 hn ha
  rw [hcs] at hm
  exact ⟨m, by simpa using hm⟩

theorem c6_no_raise_amended_witness :
    (∃ r, validate_url "http://a.b/c".toList 10 .timedOut = .ok r) ∧
    (hasPlaceholder "http://a.b/c".toList = false → ¬ netlocOf "http://a.b/c".toList = [] →
      allowlisted "http://a.b/c".toList = false → curlSuccess .timedOut = false →
      ∃ m, validate_url "http://a.b/c".toList 10 .timedOut =
        .ok ("http://a.b/c".toList, "FAIL", m)) :=
  c6_no_raise_amended "http://a.b/c".toList 10 .timedOut (by decide) (by decide)

/-- C10: a skipped URL — placeholder, empty netloc after a parse that does
not raise, or allowlisted — gets a SKIP triple that depends on the URL string
alone: the same triple whatever the timeout and whatever the curl outcome, so
any two runs agree regardless of network or subprocess behaviour. -/
theorem c10_skip_pure (url : List Char)
    (h : hasPlaceholder url = true ∨
         (urlparseRaises url = false ∧ netlocOf url = []) ∨
         (urlparseRaises url = false ∧ ¬ netlocOf url = [] ∧ allowlisted url = true)) :
    ∀ (t1 t2 : Nat) (c1 c2 : CurlOutcome),
      validate_url url t1 c1 = validate_url url t2 c2 ∧
      ∃ m, validate_url url t1 c1 = .ok (url, "SKIP", m) := by
  intro t1 t2 c1 c2
  rcases h with h | ⟨h2, h3⟩ | ⟨h2, h3, h4⟩
  · rw [skip_placeholder_eq url t1 c1 h, skip_placeholder_eq url t2 c2 h]
    exact ⟨rfl, _, rfl⟩
  · by_cases hp : hasPlaceholder url = true
    · rw [skip_placeholder_eq url t1 c1 hp, skip_placeholder_eq url t2 c2 hp]
      exact ⟨rfl, _, rfl⟩
    · have hp' : hasPlaceholder url = false := by
        simpa using hp
      rw [skip_netloc_eq url t1 c1 hp' h2 h3, skip_netloc_eq url t2 c2 hp' h2 h3]
      exact ⟨rfl, _, rfl⟩
  · by_cases hp : hasPlaceholder url = true
    · rw [skip_placeholder_eq url t1 c1 hp, skip_placeholder_eq url t2 c2 hp]
      exact ⟨rfl, _, rfl⟩
    · have hp' : hasPlaceholder url = false := by
        simpa using hp
      rw [skip_allowlist_eq url t1 c1 hp' h2 h3 h4, skip_allowlist_eq url t2 c2 hp' h2 h3 h4]
      exact ⟨rfl, _, rfl⟩

/-- The head of `dropWhile p` fails `p`. -/
theorem head_dropWhile (p : Char → Bool) :
    ∀ (l : List Char) (c : Char), (l.dropWhile p).head? = some c → p c = false := by
  intro l
  induction l with
  | nil => intro c h; simp [List.dropWhile] at h
  | cons a t ih =>
    intro c h
    rw [List.dropWhile_cons] at h
    by_cases hp : p a = true
    · rw [if_pos hp] at h
      exact ih c h
    · rw [if_neg hp] at h
      simp only [List.head?_cons, Option.some.injEq] at h
      rw [← h]
      simpa using hp

/-- `rstrip` removes a (possibly empty) suffix of characters drawn from the
strip set and nothing else. -/
theorem rstrip_split (cs m : List Char) :
    ∃ t, m = rstrip cs m ++ t ∧ t.all (fun c => cs.contains c) = true := by
  refine ⟨(m.reverse.takeWhile (fun c => cs.contains c)).reverse, ?_, ?_⟩
  · unfold rstrip
    rw [← List.reverse_append, List.takeWhile_append_dropWhile, List.reverse_reverse]
  · rw [List.all_reverse]
    exact List.all_eq_true.mpr fun c hc => List.mem_takeWhile_imp hc

/-- After `rstrip`, the last character (when one exists) is outside the strip
set: only characters of the set are removed, and maximally so. -/
theorem rstrip_last (cs m : List Char) (c : Char)
    (h : (rstrip cs m).getLast? = some c) : cs.contains c = false := by
  unfold rstrip at h
  rw [List.getLast?_reverse] at h
  exact head_dropWhile _ _ _ h

/-- `lstrip "<"` is the identity on a string that does not start with `<`. -/
theorem lstrip_noop (m : List Char) (h : ¬ m.head? = some '<') : lstrip ['<'] m = m := by
  cases m with
  | nil => rfl
  | cons a t =>
    have ha : ¬ a = '<' := fun hh => h (by rw [hh]; rfl)
    unfold lstrip
    rw [List.dropWhile_cons, if_neg (by simp [ha])]

/-- Every match of the bare-URL pattern starts with the letter `h`. -/
theorem matchBareAt_starts (s m a : List Char) (h : matchBareAt s = some (m, a)) :
    m.head? = some 'h' := by
  unfold matchBareAt at h
  by_cases h1 : prefB httpsPre s = true
  · rw [if_pos h1] at h
    by_cases h2 : ((s.drop 8).takeWhile allowedBare).isEmpty = true
    · rw [if_pos h2] at h
      exact absurd h (by simp)
    · rw [if_neg h2] at h
      simp only [Option.some.injEq, Prod.mk.injEq] at h
      rw [← h.1]
      rfl
  · rw [if_neg h1] at h
    by_cases h2 : prefB httpPre s = true
    · rw [if_pos h2] at h
      by_cases h3 : ((s.drop 7).takeWhile allowedBare).isEmpty = true
      · rw [if_pos h3] at h
        exact absurd h (by simp)
      · rw [if_neg h3] at h
        simp only [Option.some.injEq, Prod.mk.injEq] at h
        rw [← h.1]
        rfl
    · rw [if_neg h2] at h
      exact absurd h (by simp)

/-- C7 (amended): the markdown extractor strips bare matches of exactly the
trailing characters `.`, `,`, `;`, `:` and of nothing else; the Rust
extractor strips, in addition, trailing single quotes, double quotes and
backticks (of which only the backtick can actually end a pattern match) and
leading `<` characters — and the leading strip never removes anything, since
every match starts with `h`. -/
theorem c7_bare_strip_amended :
    (∀ m, ∃ t, m = mdStrip m ++ t ∧ t.all (fun c => ".,;:".toList.contains c) = true) ∧
    (∀ m c, (mdStrip m).getLast? = some c → ".,;:".toList.contains c = false) ∧
    (∀ m, ∃ t, m = rstrip rustStripChars m ++ t ∧
      t.all (fun c => rustStripChars.contains c) = true) ∧
    (∀ m c, (rstrip rustStripChars m).getLast? = some c →
      rustStripChars.contains c = false) ∧
    (∀ s m after, matchBareAt s = some (m, after) →
      rustStrip m = rstrip rustStripChars m) := by
  refine ⟨fun m => rstrip_split _ m, fun m c h => rstrip_last _ m c h,
    fun m => rstrip_split _ m, fun m c h => rstrip_last _ m c h, ?_⟩
  intro s m after h
  have hh : m.head? = some 'h' := matchBareAt_starts s m after h
  obtain ⟨t, ht, _⟩ := rstrip_split rustStripChars m
  unfold rustStrip
  apply lstrip_noop
  intro hc
  cases hr : rstrip rustStripChars m with
  | nil =>
    rw [hr] at hc
    exact absurd hc (by simp)
  | cons x xs =>
    rw [hr] at hc ht
    have hx : x = '<' := by simpa using hc
    have hmx : m.head? = some x := by rw [ht]; rfl
    rw [hmx] at hh
    have : x = 'h' := Option.some.inj hh
    rw [hx] at this
    exact absurd this (by decide)

theorem c7_bare_strip_amended_witness :
    rustStrip "https://a.b/c`".toList = rstrip rustStripChars "https://a.b/c`".toList ∧
    ".,;:".toList.contains 'f' = false :=
  ⟨c7_bare_strip_amended.2.2.2.2 "https://a.b/c`".toList "https://a.b/c`".toList []
      (by decide),
   c7_bare_strip_amended.2.1 "http://a.b/f.,".toList 'f' (by decide)⟩

/-- C7 (counterexample): the Rust extractor also strips trailing backticks.
On the docstring line ``/// see https://a.b/c` `` the bare-URL pattern
matches ``https://a.b/c` ``, and the URL recorded by
`extract_urls_from_rust` is `https://a.b/c` without the backtick, while
stripping only `.`, `,`, `;`, `:` (as the claim states for every extractor)
would have kept it. -/
theorem c7_rust_backtick_cex :
    bareFinditer "/// see https://a.b/c`".toList = ["https://a.b/c`".toList] ∧
    extract_urls_from_rust "src/lib.rs" ["/// see https://a.b/c`".toList] =
      [("src/lib.rs", 1, "https://a.b/c".toList)] ∧
    rstrip ".,;:".toList "https://a.b/c`".toList = "https://a.b/c`".toList ∧
    "https://a.b/c".toList ≠ "https://a.b/c`".toList :=
  ⟨by decide, by decide, by decide, by decide⟩

/-- `prefB` is reflexive. -/
theorem prefB_refl : ∀ u : List Char, prefB u u = true := by
  intro u
  induction u with
  | nil => rfl
  | cons a t ih => simp [prefB, ih]

/-- A string occurs in itself: `infB u u`. -/
theorem infB_refl (u : List Char) : infB u u = true := by
  cases u with
  | nil => rfl
  | cons c t => simp [infB, prefB_refl]

/-- C9: in the bare-URL recording loop, a match whose stripped text occurs as
a substring of — in particular, is equal to — a URL already collected for the
file (markdown-link URLs of the same line and all URLs of earlier lines
included, since both extractors thread one accumulator through the whole
file) is discarded: the accumulator is exactly what it would be without the
match, so no `(file, line)` occurrence is recorded for it. -/
theorem c9_bare_dedup (stripF : List Char → List Char) (fp : String) (ln : Nat)
    (urls : List Entry) (m : List Char) (ms : List (List Char))
    (h : (∃ e ∈ urls, infB (stripF m) e.2.2 = true) ∨
         ∃ f' l', (f', l', stripF m) ∈ urls) :
    bareStep stripF fp ln urls (m :: ms) = bareStep stripF fp ln urls ms := by
  have hany : urls.any (fun e => infB (stripF m) e.2.2) = true := by
    rcases h with ⟨e, he, hi⟩ | ⟨f', l', hmem⟩
    · exact List.any_eq_true.mpr ⟨e, he, hi⟩
    · exact List.any_eq_true.mpr ⟨(f', l', stripF m), hmem, infB_refl _⟩
  simp only [bareStep, hany, if_true]

theorem c9_bare_dedup_witness :
    bareStep mdStrip "R.md" 2 [("R.md", 1, "http://a.b/c".toList)]
      ["http://a.b/c".toList] =
    bareStep mdStrip "R.md" 2 [("R.md", 1, "http://a.b/c".toList)] [] :=
  c9_bare_dedup mdStrip "R.md" 2 [("R.md", 1, "http://a.b/c".toList)]
    "http://a.b/c".toList [] (Or.inr ⟨"R.md", 1, by decide⟩)

theorem c10_skip_pure_witness :
    validate_url "http://crates.io/z".toList 5 (.completed 0 "200".toList []) =
      validate_url "http://crates.io/z".toList 99 .timedOut ∧
    ∃ m, validate_url "http://crates.io/z".toList 5 (.completed 0 "200".toList []) =
      .ok ("http://crates.io/z".toList, "SKIP", m) :=
  c10_skip_pure "http://crates.io/z".toList
    (Or.inr (Or.inr ⟨by decide, by decide, by decide⟩)) 5 99
    (.completed 0 "200".toList []) .timedOut

/-- Unfolding of `lookupLocs` on a cons cell. -/
theorem lookupLocs_cons (u v : List Char) (locs : List (String × Nat))
    (t : List (List Char × List (String × Nat))) :
    lookupLocs u ((v, locs) :: t) = if v = u then locs else lookupLocs u t := rfl

/-- Unfolding of `addLoc` on a cons cell. -/
theorem addLoc_cons (v : List Char) (locs : List (String × Nat))
    (t : List (List Char × List (String × Nat))) (e : Entry) :
    addLoc ((v, locs) :: t) e =
      if v = e.2.2 then (v, locs ++ [(e.1, e.2.1)]) :: t else (v, locs) :: addLoc t e := rfl

/-- Effect of one `addLoc` step on a lookup. -/
theorem lookupLocs_addLoc (acc : List (List Char × List (String × Nat))) (e : Entry)
    (u : List Char) :
    lookupLocs u (addLoc acc e) =
      if e.2.2 = u then lookupLocs u acc ++ [(e.1, e.2.1)] else lookupLocs u acc := by
  induction acc with
  | nil =>
    by_cases h : e.2.2 = u
    · rw [if_pos h]
      simp [addLoc, lookupLocs, h]
    · rw [if_neg h]
      simp [addLoc, lookupLocs, h]
  | cons p t ih =>
    obtain ⟨v, locs⟩ := p
    by_cases hv : v = e.2.2
    · by_cases hu : v = u
      · have heu : e.2.2 = u := hv.symm.trans hu
        rw [if_pos heu, addLoc_cons, if_pos hv, lookupLocs_cons, if_pos hu,
          lookupLocs_cons, if_pos hu]
      · have heu : ¬ e.2.2 = u := fun hh => hu (hv.trans hh)
        rw [if_neg heu, addLoc_cons, if_pos hv, lookupLocs_cons, if_neg hu,
          lookupLocs_cons, if_neg hu]
    · by_cases hu : v = u
      · have heu : ¬ e.2.2 = u := fun hh => hv (hu.trans hh.symm)
        rw [if_neg heu, addLoc_cons, if_neg hv, lookupLocs_cons, if_pos hu,
          lookupLocs_cons, if_pos hu]
      · rw [addLoc_cons, if_neg hv, lookupLocs_cons, if_neg hu, lookupLocs_cons,
          if_neg hu]
        exact ih

/-- The grouping fold records, for each URL, exactly the occurrences of that
URL in input order. -/
theorem lookupLocs_foldl (l : List Entry) :
    ∀ (acc : List (List Char × List (String × Nat))) (u : List Char),
    lookupLocs u (l.foldl addLoc acc) =
      lookupLocs u acc ++
        (l.filter (fun e => decide (e.2.2 = u))).map (fun e => (e.1, e.2.1)) := by
  induction l with
  | nil => intro acc u; simp
  | cons e t ih =>
    intro acc u
    rw [List.foldl_cons, ih, lookupLocs_addLoc]
    by_cases h : e.2.2 = u
    · rw [if_pos h]
      simp [List.filter_cons, h, List.append_assoc]
    · rw [if_neg h]
      simp [List.filter_cons, h]

/-- Key membership after one `addLoc` step. -/
theorem mem_keys_addLoc (acc : List (List Char × List (String × Nat))) (e : Entry)
    (v : List Char) :
    v ∈ (addLoc acc e).map Prod.fst ↔ v ∈ acc.map Prod.fst ∨ v = e.2.2 := by
  induction acc with
  | nil => simp [addLoc]
  | cons p t ih =>
    obtain ⟨w, locs⟩ := p
    by_cases hw : w = e.2.2
    · simp only [addLoc, if_pos hw, List.map_cons, List.mem_cons]
      constructor
      · intro hh
        exact Or.inl hh
      · rintro ((hh | hh) | hh)
        · exact Or.inl hh
        · exact Or.inr hh
        · exact Or.inl (hh.trans hw.symm)
    · simp only [addLoc, if_neg hw, List.map_cons, List.mem_cons, ih]
      tauto

/-- `addLoc` preserves distinctness of the grouped keys. -/
theorem nodup_keys_addLoc (acc : List (List Char × List (String × Nat))) (e : Entry)
    (h : (acc.map Prod.fst).Nodup) : ((addLoc acc e).map Prod.fst).Nodup := by
  induction acc with
  | nil => simp [addLoc]
  | cons p t ih =>
    obtain ⟨w, locs⟩ := p
    simp only [List.map_cons, List.nodup_cons] at h
    by_cases hw : w = e.2.2
    · simp only [addLoc, if_pos hw, List.map_cons, List.nodup_cons]
      exact ⟨h.1, h.2⟩
    · simp only [addLoc, if_neg hw, List.map_cons, List.nodup_cons]
      refine ⟨?_, ih h.2⟩
      intro hmem
      rcases (mem_keys_addLoc t e w).mp hmem with h1 | h1
      · exact h.1 h1
      · exact hw h1

/-- Key membership of the full grouping fold. -/
theorem keys_foldl_mem (l : List Entry) :
    ∀ (acc : List (List Char × List (String × Nat))) (v : List Char),
    v ∈ (l.foldl addLoc acc).map Prod.fst ↔
      v ∈ acc.map Prod.fst ∨ ∃ f n, (f, n, v) ∈ l := by
  induction l with
  | nil => simp
  | cons e t ih =>
    intro acc v
    rw [List.foldl_cons, ih, mem_keys_addLoc]
    constructor
    · rintro ((h | h) | h)
      · exact Or.inl h
      · refine Or.inr ⟨e.1, e.2.1, ?_⟩
        rw [h]
        exact List.mem_cons_self e t
      · obtain ⟨f, n, hf⟩ := h
        exact Or.inr ⟨f, n, List.mem_cons_of_mem _ hf⟩
    · rintro (h | ⟨f, n, hf⟩)
      · exact Or.inl (Or.inl h)
      · rcases List.mem_cons.mp hf with he | ht
        · refine Or.inl (Or.inr ?_)
          rw [← he]
        · exact Or.inr ⟨f, n, ht⟩

/-- The grouping fold preserves key distinctness. -/
theorem nodup_keys_foldl (l : List Entry) :
    ∀ (acc : List (List Char × List (String × Nat))),
    (acc.map Prod.fst).Nodup → ((l.foldl addLoc acc).map Prod.fst).Nodup := by
  induction l with
  | nil => intro acc h; simpa
  | cons e t ih =>
    intro acc h
    rw [List.foldl_cons]
    exact ih _ (nodup_keys_addLoc acc e h)

/-- In a duplicate-free list, a member is counted exactly once. -/
theorem countP_eq_one_of_nodup_mem (l : List (List Char)) (u : List Char)
    (hnd : l.Nodup) (hmem : u ∈ l) : l.countP (fun v => decide (v = u)) = 1 := by
  induction l with
  | nil => simp at hmem
  | cons a t ih =>
    rw [List.countP_cons]
    have hts := (List.nodup_cons.mp hnd).2
    rcases List.mem_cons.mp hmem with he | ht
    · have h0 : t.countP (fun v => decide (v = u)) = 0 := by
        rw [List.countP_eq_zero]
        intro b hb
        simp only [decide_eq_true_eq]
        intro hbu
        exact (List.nodup_cons.mp hnd).1 ((hbu.trans he) ▸ hb)
      rw [h0]
      simp [he]
    · have hne : ¬ a = u := fun hh => (List.nodup_cons.mp hnd).1 (hh ▸ ht)
      rw [ih hts ht]
      simp [hne]

/-- C2 (amended): a URL occurring somewhere in the scan appears exactly once
in `unique_urls` — so `validate_url` is submitted for it exactly once — and
its grouped location list is exactly its occurrences, all N of them, in scan
order.  The printed report lists those locations only for a FAIL result: all
of them when N ≤ 3, and the first 3 plus the count N - 3 when N > 3; a PASS
or SKIP result lists none. -/
theorem c2_url_grouping_amended (l : List Entry) (u : List Char)
    (h : ∃ f n, (f, n, u) ∈ l) :
    (unique_urls l).countP (fun v => decide (v = u)) = 1 ∧
    lookupLocs u (url_locations l) =
      (l.filter (fun e => decide (e.2.2 = u))).map (fun e => (e.1, e.2.1)) ∧
    (∀ locs : List (String × Nat), locs.length ≤ 3 →
      printedLocations "FAIL" locs = (locs, none)) ∧
    (∀ locs : List (String × Nat), 3 < locs.length →
      printedLocations "FAIL" locs = (locs.take 3, some (locs.length - 3))) ∧
    (∀ (st : String) (locs : List (String × Nat)), st = "PASS" ∨ st = "SKIP" →
      printedLocations st locs = ([], none)) := by
  refine ⟨?_, ?_, ?_, ?_, ?_⟩
  · apply countP_eq_one_of_nodup_mem
    · exact nodup_keys_foldl l [] (by simp)
    · exact (keys_foldl_mem l [] u).mpr (Or.inr h)
  · have hfold := lookupLocs_foldl l [] u
    simpa [url_locations, lookupLocs] using hfold
  · intro locs hle
    unfold printedLocations
    rw [if_pos rfl, if_neg (by omega), List.take_of_length_le hle]
  · intro locs hgt
    unfold printedLocations
    rw [if_pos rfl, if_pos hgt]
  · intro st locs hst
    unfold printedLocations
    rcases hst with h1 | h1 <;> rw [if_neg (by simp [h1])]

theorem c2_url_grouping_amended_witness :
    (unique_urls [("a.md", 1, "http://x.y".toList), ("b.md", 2, "http://x.y".toList)]).countP
      (fun v => decide (v = "http://x.y".toList)) = 1 :=
  (c2_url_grouping_amended
    [("a.md", 1, "http://x.y".toList), ("b.md", 2, "http://x.y".toList)]
    "http://x.y".toList ⟨"a.md", 1, by decide⟩).1

/-- C2 (counterexample): the report does not list locations for every URL:
a URL classified PASS with one recorded location has no location listed at
all (lines 247-248 only count it), while the claim asks for all N locations
to be listed. -/
theorem c2_pass_location_cex :
    printedLocations "PASS" [("README.md", 5)] = ([], none) ∧
    printedLocations "PASS" [("README.md", 5)] ≠ ([("README.md", 5)], none) :=
  ⟨by decide, by decide⟩

/-- Unfolding of `lexLeB` on two cons cells. -/
theorem lexLeB_cons_iff (x y : Char) (s t : List Char) :
    lexLeB (x :: s) (y :: t) = true ↔
      x.toNat < y.toNat ∨ (x.toNat = y.toNat ∧ lexLeB s t = true) := by
  by_cases h1 : x.toNat < y.toNat
  · simp [lexLeB, h1]
  · by_cases h2 : y.toNat < x.toNat
    · simp only [lexLeB, if_neg h1, if_pos h2]
      constructor
      · intro hh
        exact absurd hh (by simp)
      · rintro (hh | ⟨hh, _⟩)
        · exact absurd hh h1
        · omega
    · have h3 : x.toNat = y.toNat := by omega
      simp [lexLeB, h1, h2, h3]

/-- The code-point order on strings is total. -/
theorem lexLeB_total : ∀ a b : List Char, lexLeB a b = true ∨ lexLeB b a = true := by
  intro a
  induction a with
  | nil => intro b; left; rfl
  | cons x s ih =>
    intro b
    cases b with
    | nil => right; rfl
    | cons y t =>
      rw [lexLeB_cons_iff, lexLeB_cons_iff]
      rcases Nat.lt_trichotomy x.toNat y.toNat with h | h | h
      · exact Or.inl (Or.inl h)
      · rcases ih t with h1 | h1
        · exact Or.inl (Or.inr ⟨h, h1⟩)
        · exact Or.inr (Or.inr ⟨h.symm, h1⟩)
      · exact Or.inr (Or.inl h)

/-- The code-point order on strings is transitive. -/
theorem lexLeB_trans : ∀ a b c : List Char,
    lexLeB a b = true → lexLeB b c = true → lexLeB a c = true := by
  intro a
  induction a with
  | nil => intro b c _ _; rfl
  | cons x s ih =>
    intro b c hab hbc
    cases b with
    | nil => simp [lexLeB] at hab
    | cons y t =>
      cases c with
      | nil => simp [lexLeB] at hbc
      | cons z r =>
        rw [lexLeB_cons_iff] at hab hbc ⊢
        rcases hab with h1 | ⟨h1, h1'⟩ <;> rcases hbc with h2 | ⟨h2, h2'⟩
        · exact Or.inl (by omega)
        · exact Or.inl (by omega)
        · exact Or.inl (by omega)
        · exact Or.inr ⟨h1.trans h2, ih t r h1' h2'⟩

/-- The code-point order on strings is antisymmetric. -/
theorem lexLeB_antisymm : ∀ a b : List Char,
    lexLeB a b = true → lexLeB b a = true → a = b := by
  intro a
  induction a with
  | nil =>
    intro b _ h2
    cases b with
    | nil => rfl
    | cons y t => simp [lexLeB] at h2
  | cons x s ih =>
    intro b h1 h2
    cases b with
    | nil => simp [lexLeB] at h1
    | cons y t =>
      rw [lexLeB_cons_iff] at h1 h2
      rcases h1 with h1 | ⟨h1, h1'⟩
      · rcases h2 with h2 | ⟨h2, _⟩
        · exact absurd h1 (by omega)
        · exact absurd h1 (by omega)
      · rcases h2 with h2 | ⟨h2, h2'⟩
        · exact absurd h2 (by omega)
        · have hx : x = y := Char.ext (UInt32.ext h1)
          rw [hx, ih t h1' h2']

instance : IsTotal Res keyLe :=
  ⟨by
    intro a b
    unfold keyLe
    rcases Nat.lt_trichotomy (status_order a.2.1) (status_order b.2.1) with h | h | h
    · exact Or.inl (Or.inl h)
    · rcases lexLeB_total a.1 b.1 with h1 | h1
      · exact Or.inl (Or.inr ⟨h, h1⟩)
      · exact Or.inr (Or.inr ⟨h.symm, h1⟩)
    · exact Or.inr (Or.inl h)⟩

instance : IsTrans Res keyLe :=
  ⟨by
    intro a b c hab hbc
    unfold keyLe at hab hbc ⊢
    rcases hab with h1 | ⟨h1, h1'⟩ <;> rcases hbc with h2 | ⟨h2, h2'⟩
    · exact Or.inl (by omega)
    · exact Or.inl (by omega)
    · exact Or.inl (by omega)
    · exact Or.inr ⟨h1.trans h2, lexLeB_trans _ _ _ h1' h2'⟩⟩

/-- Two sorted lists that are permutations of each other and whose URL
components are distinct coincide: the sort key determines the order once the
URLs are distinct, ties being impossible. -/
theorem sorted_perm_nodup_eq : ∀ (l1 l2 : List Res), l1.Perm l2 →
    l1.Sorted keyLe → l2.Sorted keyLe → (l1.map (fun r => r.1)).Nodup → l1 = l2 := by
  intro l1
  induction l1 with
  | nil =>
    intro l2 hp _ _ _
    exact hp.nil_eq
  | cons a t1 ih =>
    intro l2 hp h1 h2 hnd
    cases l2 with
    | nil => exact absurd hp.symm.nil_eq (by simp)
    | cons b t2 =>
      by_cases hab : a = b
      · subst hab
        have hp' : t1.Perm t2 := hp.cons_inv
        have h1' := (List.sorted_cons.mp h1).2
        have h2' := (List.sorted_cons.mp h2).2
        have hnd2 : (a.1 :: t1.map (fun r => r.1)).Nodup := by
          rw [List.map_cons] at hnd
          exact hnd
        rw [ih t2 hp' h1' h2' (List.nodup_cons.mp hnd2).2]
      · have hain : a ∈ b :: t2 := hp.subset (List.mem_cons_self a t1)
        have hbin : b ∈ a :: t1 := hp.symm.subset (List.mem_cons_self b t2)
        have hat2 : a ∈ t2 := by
          rcases List.mem_cons.mp hain with h | h
          · exact absurd h hab
          · exact h
        have hbt1 : b ∈ t1 := by
          rcases List.mem_cons.mp hbin with h | h
          · exact absurd h.symm hab
          · exact h
        have hab1 : keyLe a b := (List.sorted_cons.mp h1).1 b hbt1
        have hba1 : keyLe b a := (List.sorted_cons.mp h2).1 a hat2
        have hurl : a.1 = b.1 := by
          unfold keyLe at hab1 hba1
          rcases hab1 with h1a | ⟨h1a, h1b⟩
          · rcases hba1 with h2a | ⟨h2a, _⟩
            · exact absurd h1a (by omega)
            · exact absurd h1a (by omega)
          · rcases hba1 with h2a | ⟨h2a, h2b⟩
            · exact absurd h2a (by omega)
            · exact lexLeB_antisymm _ _ h1b h2b
        exfalso
        have hmem : a.1 ∈ t1.map (fun r => r.1) := by
          rw [hurl]
          exact List.mem_map_of_mem _ hbt1
        have hnd2 : (a.1 :: t1.map (fun r => r.1)).Nodup := by
          rw [List.map_cons] at hnd
          exact hnd
        exact (List.nodup_cons.mp hnd2).1 hmem

/-- C8 (amended): on every result list whose URLs are pairwise distinct — as
in the program, where there is exactly one result per unique URL — sorting is
permutation-invariant: any two permutations of the same results sort to the
same list, so the report order is deterministic; and the sorted output is
ordered by the key, FAIL (rank 0) before PASS (rank 1) before SKIP (rank 2),
ties broken by the URL string. -/
theorem c8_sort_deterministic (l1 l2 : List Res) (hp : l1.Perm l2)
    (hn : (l1.map (fun r => r.1)).Nodup) :
    sortResults l1 = sortResults l2 ∧ (sortResults l1).Sorted keyLe := by
  have hs1 : (sortResults l1).Sorted keyLe := List.sorted_insertionSort keyLe l1
  have hs2 : (sortResults l2).Sorted keyLe := List.sorted_insertionSort keyLe l2
  have hperm : (sortResults l1).Perm (sortResults l2) :=
    (List.perm_insertionSort keyLe l1).trans
      (hp.trans (List.perm_insertionSort keyLe l2).symm)
  have hnd : ((sortResults l1).map (fun r => r.1)).Nodup :=
    (((List.perm_insertionSort keyLe l1).map (fun r => r.1)).nodup_iff).mpr hn
  exact ⟨sorted_perm_nodup_eq _ _ hperm hs1 hs2 hnd, hs1⟩

theorem c8_sort_deterministic_witness :
    sortResults [("b".toList, "PASS", "x".toList), ("a".toList, "FAIL", "y".toList)] =
      sortResults [("a".toList, "FAIL", "y".toList), ("b".toList, "PASS", "x".toList)] ∧
    (sortResults
      [("b".toList, "PASS", "x".toList), ("a".toList, "FAIL", "y".toList)]).Sorted keyLe :=
  c8_sort_deterministic
    [("b".toList, "PASS", "x".toList), ("a".toList, "FAIL", "y".toList)]
    [("a".toList, "FAIL", "y".toList), ("b".toList, "PASS", "x".toList)]
    (by decide) (by decide)

/-- C8 (counterexample): for arbitrary result lists the claim fails.  The sort
key `(status rank, url)` ignores the message, and Python's sort is stable, so
the two permutations of a list holding two results with the same URL and
status but different messages sort to themselves — two different outputs.
(Such duplicates cannot arise in `main`, which produces one result per unique
URL; with distinct URLs the amended theorem restores determinism.) -/
theorem c8_sort_permutation_cex :
    ([("u".toList, "FAIL", "a".toList), ("u".toList, "FAIL", "b".toList)] : List Res).Perm
      [("u".toList, "FAIL", "b".toList), ("u".toList, "FAIL", "a".toList)] ∧
    sortResults [("u".toList, "FAIL", "a".toList), ("u".toList, "FAIL", "b".toList)] ≠
      sortResults [("u".toList, "FAIL", "b".toList), ("u".toList, "FAIL", "a".toList)] :=
  ⟨by decide, by decide⟩

/-- C1: the exit status is 1 exactly when some result is classified FAIL, and
0 exactly when none is — independently of how many PASS or SKIP results there
are. -/
theorem c1_exit_code_iff (results : List Res) :
    (exit_code results = 1 ↔ ∃ r ∈ results, r.2.1 = "FAIL") ∧
    (exit_code results = 0 ↔ ∀ r ∈ results, r.2.1 ≠ "FAIL") := by
  have hcnt : fail_count results =
      results.countP (fun r => decide (r.2.1 = "FAIL")) :=
    (List.perm_insertionSort keyLe results).countP_eq _
  have hpos : 0 < fail_count results ↔ ∃ r ∈ results, r.2.1 = "FAIL" := by
    rw [hcnt, List.countP_pos_iff]
    simp
  unfold exit_code
  by_cases h : 0 < fail_count results
  · rw [if_pos h]
    constructor
    · exact iff_of_true rfl (hpos.mp h)
    · refine iff_of_false (by simp) ?_
      intro hall
      obtain ⟨r, hr, hf⟩ := hpos.mp h
      exact hall r hr hf
  · rw [if_neg h]
    constructor
    · refine iff_of_false (by simp) ?_
      intro he
      exact h (hpos.mpr he)
    · refine iff_of_true rfl ?_
      intro r hr hf
      exact h (hpos.mpr ⟨r, hr, hf⟩)

end ValidateUrls
